import Mathlib

/-!
Verification development for the SEC filing segmentation, chunking and
retrieval-deduplication pipeline (`src/data/processor.py`,
`src/storage/vector_store.py`).

The Python code is shallowly embedded: pure functions become Lean functions,
the in-place mutation performed by `VectorStore._process_results` is made
explicit by returning the post-call state of the metadata list, and the two
external collaborators (the langchain text splitter and the chromadb engine)
are passed in as explicit function parameters.  Python `float` values only
undergo exact decimal arithmetic in this code (parsing decimal literals and
multiplying by powers of ten), so they are modelled as `ℚ`.  Strings are
treated as sequences of characters (Python `str` indexing/slicing is by code
point); regular-expression character classes `\w`, `\s`, `\d` are modelled
over their ASCII meaning, which covers every input considered here.
-/

/-- ASCII whitespace, the characters matched by the regex class `\s`
(and by Python `str.split()`/`str.strip()` with no argument). -/
def isPyWs (c : Char) : Bool :=
  c = ' ' || c = '\t' || c = '\n' || c = '\r' || c = Char.ofNat 11 || c = Char.ofNat 12

/-- The apostrophe character (code point 39), as escaped in the source
pattern `Management\'?s?`. -/
def aposChar : Char := Char.ofNat 39

/-- The double-quote character (code point 34), a member of the `_clean_text`
allow-list. -/
def quoteChar : Char := Char.ofNat 34

/-- Splits a character list at every occurrence of `sep`, keeping empty
pieces: the behaviour of Python `str.split(sep)` for a one-character
separator (`''.split(sep) = ['']`). -/
def splitOnChar (sep : Char) : List Char → List (List Char)
  | [] => [[]]
  | c :: cs =>
    if c = sep then [] :: splitOnChar sep cs
    else
      match splitOnChar sep cs with
      | r :: rs => (c :: r) :: rs
      | [] => [[c]]

/-- Rejoins the pieces of a newline split, putting `'\n'` before every piece:
the accumulation shape produced by `_split_into_sections`, whose else-branch
executes `current_text += '\n' + line` starting from the empty string. -/
def joinNl : List (List Char) → List Char
  | [] => []
  | l :: ls => '\n' :: (l ++ joinNl ls)

/-! ## Embedding of the section-header regular expressions

`SECDocumentProcessor.section_patterns` holds five patterns, each of the
shape `(Item N ...)?CORE`, searched with `re.search(..., re.IGNORECASE)`.
The pattern language they use is tiny: case-insensitive literals, `\s*`, and
a single optional character (`\.?`, `\'?`, `s?`), wrapped in one leading
optional group.  `RAtom` embeds the atom language, `RPattern` the
group-plus-core shape, and `matchAtoms` is a backtracking matcher for atom
sequences.  `matchAtoms` recurses on an explicit fuel argument so that it is
structurally recursive (and hence evaluates inside `rfl`/`decide`); every
recursive call strictly decreases `ps.length + cs.length`, so the fuel
`ps.length + cs.length + 1` supplied at every call site is always sufficient
and the fuel-exhausted branch is unreachable. -/

inductive RAtom where
  /-- a literal character, compared case-insensitively (`re.IGNORECASE`) -/
  | lit (c : Char)
  /-- `\s*` -/
  | ws
  /-- an optional single character, e.g. `\.?` -/
  | optChar (c : Char)

/-- Does the atom sequence match a prefix of `cs` (anchored at the head)?
Backtracking matcher with fuel; literal comparison is case-insensitive. -/
def matchAtoms : Nat → List RAtom → List Char → Bool
  | _, [], _ => true
  | 0, _ :: _, _ => false
  | fuel + 1, RAtom.lit c :: ps, cs =>
    match cs with
    | [] => false
    | d :: ds => (d.toLower = c.toLower) && matchAtoms fuel ps ds
  | fuel + 1, RAtom.ws :: ps, cs =>
    matchAtoms fuel ps cs ||
      (match cs with
       | [] => false
       | d :: ds => isPyWs d && matchAtoms fuel (RAtom.ws :: ps) ds)
  | fuel + 1, RAtom.optChar c :: ps, cs =>
    (match cs with
     | [] => false
     | d :: ds => (d.toLower = c.toLower) && matchAtoms fuel ps ds) ||
      matchAtoms fuel ps cs

/-- A pattern `(GROUP)?CORE`: one optional leading group followed by the
mandatory core, the common shape of all five section patterns. -/
structure RPattern where
  group : List RAtom
  core : List RAtom

/-- Does the pattern match at the head of `cs`?  `(G)?C` matches at a
position iff `G` followed by `C` matches there, or `C` alone does. -/
def matchPatternAt (p : RPattern) (cs : List Char) : Bool :=
  matchAtoms ((p.group ++ p.core).length + cs.length + 1) (p.group ++ p.core) cs ||
    matchAtoms (p.core.length + cs.length + 1) p.core cs

/-- Unanchored search: `re.search` semantics.  Tries to match the pattern at
every start position of `cs`. -/
def searchFrom (p : RPattern) : List Char → Bool
  | [] => matchPatternAt p []
  | c :: cs => matchPatternAt p (c :: cs) || searchFrom p cs

/-- Literal run helper: the characters of `s` as case-insensitive literals. -/
def lits (s : String) : List RAtom := s.toList.map RAtom.lit

/-- `(Item\s*1A\.?\s*)?Risk\s*Factors` -/
def risk_factors_pattern : RPattern :=
  ⟨lits "Item" ++ [RAtom.ws] ++ lits "1A" ++ [RAtom.optChar '.', RAtom.ws],
   lits "Risk" ++ [RAtom.ws] ++ lits "Factors"⟩

/-- `(Item\s*7\.?\s*)?Management\'?s?\s*Discussion\s*and\s*Analysis` -/
def mda_pattern : RPattern :=
  ⟨lits "Item" ++ [RAtom.ws] ++ lits "7" ++ [RAtom.optChar '.', RAtom.ws],
   lits "Management" ++ [RAtom.optChar aposChar, RAtom.optChar 's', RAtom.ws] ++
     lits "Discussion" ++ [RAtom.ws] ++ lits "and" ++ [RAtom.ws] ++ lits "Analysis"⟩

/-- `(Item\s*1\.?\s*)?Business` -/
def business_pattern : RPattern :=
  ⟨lits "Item" ++ [RAtom.ws] ++ lits "1" ++ [RAtom.optChar '.', RAtom.ws],
   lits "Business"⟩

/-- `(Item\s*8\.?\s*)?Financial\s*Statements` -/
def financial_statements_pattern : RPattern :=
  ⟨lits "Item" ++ [RAtom.ws] ++ lits "8" ++ [RAtom.optChar '.', RAtom.ws],
   lits "Financial" ++ [RAtom.ws] ++ lits "Statements"⟩

/-- `(Item\s*7A\.?\s*)?Quantitative\s*and\s*Qualitative\s*Disclosures\s*[Aa]bout\s*Market\s*Risk`
(under `re.IGNORECASE` the class `[Aa]` is equivalent to the literal `a`). -/
def market_risk_pattern : RPattern :=
  ⟨lits "Item" ++ [RAtom.ws] ++ lits "7A" ++ [RAtom.optChar '.', RAtom.ws],
   lits "Quantitative" ++ [RAtom.ws] ++ lits "and" ++ [RAtom.ws] ++ lits "Qualitative" ++
     [RAtom.ws] ++ lits "Disclosures" ++ [RAtom.ws] ++ lits "about" ++ [RAtom.ws] ++
     lits "Market" ++ [RAtom.ws] ++ lits "Risk"⟩

/-- `SECDocumentProcessor._identify_section`: tests the five patterns in the
insertion order of `section_patterns` and returns the first tag whose pattern
is found anywhere in the text (`re.search`, `re.IGNORECASE`); `'other'` when
none matches.  (The source also computes `text.lower()` into an unused local,
a no-op.) -/
def identify_section (text : List Char) : String :=
  if searchFrom risk_factors_pattern text then "risk_factors"
  else if searchFrom mda_pattern text then "mda"
  else if searchFrom business_pattern text then "business"
  else if searchFrom financial_statements_pattern text then "financial_statements"
  else if searchFrom market_risk_pattern text then "market_risk"
  else "other"

/-! ## Segmenter: `SECDocumentProcessor._split_into_sections` -/

/-- One iteration of the line loop in `_split_into_sections`.  State is
`(sections, current_text, current_type)`.  A line whose classified tag is not
`'other'` closes the accumulating span (emitting it only when its text is
non-empty, Python truthiness of `current_text`) and seeds a new span with the
triggering line; any other line is appended as `current_text += '\n' + line`. -/
def splitStep (st : List (List Char × String) × List Char × String) (line : List Char) :
    List (List Char × String) × List Char × String :=
  let sections := st.1
  let current_text := st.2.1
  let current_type := st.2.2
  let section_type := identify_section line
  if section_type ≠ "other" then
    ((if current_text = [] then sections else sections ++ [(current_text, current_type)]),
     line, section_type)
  else
    (sections, current_text ++ '\n' :: line, current_type)

/-- `_split_into_sections` over a character list: fold `splitStep` over the
lines of `text.split('\n')` from `([], "", 'other')`, then emit the final
accumulating span when its text is non-empty. -/
def split_into_sections_l (text : List Char) : List (List Char × String) :=
  let r := (splitOnChar '\n' text).foldl splitStep ([], [], "other")
  if r.2.1 = [] then r.1 else r.1 ++ [(r.2.1, r.2.2)]

/-- `_split_into_sections` on strings, the form consumed by
`process_document`. -/
def split_into_sections (text : String) : List (String × String) :=
  (split_into_sections_l text.toList).map (fun sp => (sp.1.asString, sp.2))

/-! ## Cleaning: `SECDocumentProcessor._clean_text` -/

/-- Python `\w` over ASCII: letters, digits and underscore. -/
def isWordChar (c : Char) : Bool := c.isAlphanum || c = '_'

/-- The `_clean_text` allow-list `[\w\s\.,;:\-\(\)\'\"$%]`: word characters,
whitespace and a fixed punctuation set. -/
def isAllowed (c : Char) : Bool :=
  isWordChar c || isPyWs c || c = '.' || c = ',' || c = ';' || c = ':' || c = '-' ||
    c = '(' || c = ')' || c = aposChar || c = quoteChar || c = '$' || c = '%'

/-- Python `str.split()` (no argument): the maximal whitespace-free runs, in
order, with no empty pieces.  `acc` accumulates the current run reversed. -/
def wsWords : List Char → List Char → List (List Char)
  | [], acc => if acc = [] then [] else [acc.reverse]
  | c :: cs, acc =>
    if isPyWs c then
      if acc = [] then wsWords cs [] else acc.reverse :: wsWords cs []
    else wsWords cs (c :: acc)

/-- `re.sub(r'\s+', ' ', ...)`: collapse every whitespace run to one space.
The flag records whether the previous character was whitespace. -/
def collapseWsAux : List Char → Bool → List Char
  | [], _ => []
  | c :: cs, prevWs =>
    if isPyWs c then
      if prevWs then collapseWsAux cs true else ' ' :: collapseWsAux cs true
    else c :: collapseWsAux cs false

/-- Python `str.strip()`: drop leading and trailing whitespace. -/
def stripWs (cs : List Char) : List Char :=
  ((cs.dropWhile isPyWs).reverse.dropWhile isPyWs).reverse

/-- `_clean_text`: `' '.join(text.split())`, then replace every character
outside the allow-list by a space, then collapse whitespace runs and strip. -/
def clean_text_l (text : List Char) : List Char :=
  let t1 := List.intercalate [' '] (wsWords text [])
  let t2 := t1.map (fun c => if isAllowed c then c else ' ')
  stripWs (collapseWsAux t2 false)

/-- `_clean_text` on strings. -/
def clean_text (text : String) : String := (clean_text_l text.toList).asString

/-! ## Metric extraction: `SECDocumentProcessor._extract_metrics`

The two `re.finditer` scans are embedded as deterministic matchers.  Both
regexes are deterministic under greedy matching: after each greedy quantifier
the following regex element can never be satisfied by giving characters back
(digits are not commas, dots, whitespace or `%`), so the greedy translation
below agrees with Python backtracking semantics.  `finditer` yields
non-overlapping leftmost matches: the scanners try every start position and
resume after the end of each match.  Numeric values are modelled as `ℚ`,
which agrees exactly with Python `float` on every computation performed here
for values of the magnitudes involved (decimal literals scaled by powers of
ten). -/

attribute [local semireducible] Rat.add Rat.mul Rat.inv Rat.sub

/-- The longest leading digit run and the remainder: the greedy `\d+`/`\d*`. -/
def takeDigits : List Char → List Char × List Char
  | [] => ([], [])
  | c :: cs =>
    if c.isDigit then
      let r := takeDigits cs
      (c :: r.1, r.2)
    else ([], c :: cs)

/-- Numeric value of a digit string (big-endian). -/
def digitsToNat (ds : List Char) : Nat :=
  ds.foldl (fun n c => n * 10 + (c.toNat - 48)) 0

/-- The greedy `(?:,\d{3})*` of the currency regex: repeatedly consume a
comma followed by exactly three digits, returning the collected digits with
the commas stripped (as `float(...\.replace(',', ''))` does) and the
remainder. -/
def takeCommaGroups : List Char → List Char × List Char
  | ',' :: a :: b :: c :: rest =>
    if a.isDigit && b.isDigit && c.isDigit then
      let r := takeCommaGroups rest
      (a :: b :: c :: r.1, r.2)
    else ([], ',' :: a :: b :: c :: rest)
  | other => ([], other)

/-- The `(?:\.\d{2})?` of the currency regex: an optional dot followed by
exactly two digits. -/
def takeFracTwo : List Char → Option (Char × Char) × List Char
  | '.' :: a :: b :: rest =>
    if a.isDigit && b.isDigit then (some (a, b), rest)
    else (none, '.' :: a :: b :: rest)
  | other => (none, other)

/-- Consume the literal word `w` (case-sensitively) from the head of `cs`. -/
def dropLits : List Char → List Char → Option (List Char)
  | [], cs => some cs
  | _ :: _, [] => none
  | w :: ws, c :: cs => if c = w then dropLits ws cs else none

/-- The `(million|billion|trillion)?` group with the multiplier applied by
`_extract_metrics` (`1e6`, `1e9`, `1e12`); alternatives tried left to right,
case-sensitively (this regex carries no `IGNORECASE` flag). -/
def matchScale (cs : List Char) : Option (ℚ × List Char) :=
  match dropLits ("million".toList) cs with
  | some rest => some ((1000000 : ℚ), rest)
  | none =>
    match dropLits ("billion".toList) cs with
    | some rest => some ((1000000000 : ℚ), rest)
    | none =>
      match dropLits ("trillion".toList) cs with
      | some rest => some ((1000000000000 : ℚ), rest)
      | none => none

/-- One attempted match of
`\$\s*(\d+(?:,\d{3})*(?:\.\d{2})?)\s*(million|billion|trillion)?` anchored at
the head of the input: on success, the float value computed by
`_extract_metrics` for this match and the remainder of the text after the
match.  The remainder is always strictly shorter than the input (at least the
`$` is consumed). -/
def matchCurrencyAt : List Char → Option (ℚ × List Char)
  | [] => none
  | c :: cs =>
    if c = '$' then
      let cs1 := cs.dropWhile isPyWs
      let d := takeDigits cs1
      if d.1 = [] then none
      else
        let g := takeCommaGroups d.2
        let f := takeFracTwo g.2
        let intVal : ℚ := digitsToNat (d.1 ++ g.1)
        let amount : ℚ :=
          match f.1 with
          | none => intVal
          | some ab => intVal + (digitsToNat [ab.1, ab.2] : ℚ) / 100
        let rest := f.2.dropWhile isPyWs
        match matchScale rest with
        | some mr => some (amount * mr.1, mr.2)
        | none => some (amount, rest)
    else none

/-- One attempted match of `(\d+(?:\.\d+)?)\s*%` anchored at the head: on
success, the float value and the remainder after the `%`. -/
def matchPercentAt (cs : List Char) : Option (ℚ × List Char) :=
  let d := takeDigits cs
  if d.1 = [] then none
  else
    let f : Option (List Char) × List Char :=
      match d.2 with
      | '.' :: rest =>
        let fd := takeDigits rest
        if fd.1 = [] then (none, d.2) else (some fd.1, fd.2)
      | other => (none, other)
    let value : ℚ :=
      match f.1 with
      | none => digitsToNat d.1
      | some fds => (digitsToNat d.1 : ℚ) + (digitsToNat fds : ℚ) / (10 : ℚ) ^ fds.length
    match f.2.dropWhile isPyWs with
    | '%' :: rest => some (value, rest)
    | _ => none

/-- `re.finditer` scan for the currency regex: try each position left to
right, resume after the end of a match.  Fuel bounds the iteration count;
each step consumes at least one character, so `cs.length + 1` always
suffices. -/
def scanCurrency : Nat → List Char → List ℚ
  | 0, _ => []
  | _, [] => []
  | fuel + 1, c :: rest =>
    match matchCurrencyAt (c :: rest) with
    | some vr => vr.1 :: scanCurrency fuel vr.2
    | none => scanCurrency fuel rest

/-- `re.finditer` scan for the percentage regex. -/
def scanPercent : Nat → List Char → List ℚ
  | 0, _ => []
  | _, [] => []
  | fuel + 1, c :: rest =>
    match matchPercentAt (c :: rest) with
    | some vr => vr.1 :: scanPercent fuel vr.2
    | none => scanPercent fuel rest

/-- `_extract_metrics`: the ordered currency-amount and percentage sequences
found in `text` (the `currency_amounts` and `percentages` entries of the
returned dict). -/
def extract_metrics (text : String) : List ℚ × List ℚ :=
  (scanCurrency (text.toList.length + 1) text.toList,
   scanPercent (text.toList.length + 1) text.toList)

/-! ## Data model and `SECDocumentProcessor.process_document`

`SECDocument` mirrors `src/models/document.py` (the `filing_date : datetime`
is carried as the string `str(document.filing_date)` that the processor
stores; `metadata` and `sections` are free-form mappings the processor never
reads).  A chunk's metadata dict has a fixed key set, so it is embedded as
the structure `ChunkMeta`; the `metrics_summary` key, absent until
`_process_results` adds it, is an `Option` field defaulting to `none`.  The
langchain `RecursiveCharacterTextSplitter` is an external collaborator and is
passed to `process_document` as an explicit `split_text` parameter. -/

structure SECDocument where
  filing_id : String
  company_name : String
  ticker : String
  filing_type : String
  filing_date : String
  document_text : String
  metadata : List (String × String)
  sections : List (String × String)
deriving DecidableEq

/-- The chunk metadata dict built in `process_document`; `sectionTag` embeds
the `"section"` key (`section` is reserved in Lean). -/
structure ChunkMeta where
  filing_id : String
  company_name : String
  ticker : String
  filing_type : String
  filing_date : String
  sectionTag : String
  chunk_index : Nat
  total_chunks : Nat
  currency_amounts : String
  percentages : String
  has_metrics : String
  metrics_summary : Option String := none
deriving DecidableEq

structure Chunk where
  text : String
  metadata : ChunkMeta
deriving DecidableEq

/-- Python `str(float)` for the non-negative exact-decimal values produced by
`_extract_metrics` (every such value is `n / 10^k` with minimal `k`, and
Python prints such a double below `1e16` as its shortest decimal literal,
e.g. `"1.0"`, `"12.3"`, `"1500000.0"`).  The search bound 40 covers every
fraction length reachable from a match (at most the match length). -/
def pyFloatStr (q : ℚ) : String :=
  let k := (((List.range 40).filter (fun k => (q * (10 : ℚ) ^ k).den = 1)).headD 0)
  let n := (q * (10 : ℚ) ^ k).num.natAbs
  if k = 0 then Nat.repr n ++ ".0"
  else
    let frac := Nat.repr (n % 10 ^ k)
    Nat.repr (n / 10 ^ k) ++ "." ++
      (List.replicate (k - frac.toList.length) '0').asString ++ frac

/-- `','.join(map(str, ...))` over a float list. -/
def joinFloats (xs : List ℚ) : String := String.intercalate "," (xs.map pyFloatStr)

/-- `SECDocumentProcessor.process_document`: empty `document_text` is falsy
and yields no chunks; otherwise each section span is cleaned, split by the
(injected) text splitter, and each resulting window becomes a chunk whose
metadata records the filing fields, the section tag, the per-section
`enumerate` index and count, the stringified metric lists and the
`any(metrics.values())` flag. -/
def process_document (split_text : String → List String) (document : SECDocument) :
    List Chunk :=
  if document.document_text = "" then []
  else
    ((split_into_sections document.document_text).map (fun sp =>
      let cleaned_text := clean_text sp.1
      let text_chunks := split_text cleaned_text
      text_chunks.enum.map (fun ic =>
        let metrics := extract_metrics ic.2
        { text := ic.2
          metadata :=
            { filing_id := document.filing_id
              company_name := document.company_name
              ticker := document.ticker
              filing_type := document.filing_type
              filing_date := document.filing_date
              sectionTag := sp.2
              chunk_index := ic.1
              total_chunks := text_chunks.length
              currency_amounts := joinFloats metrics.1
              percentages := joinFloats metrics.2
              has_metrics :=
                if metrics.1.isEmpty && metrics.2.isEmpty then "false" else "true"
              metrics_summary := none } }))).flatten

/-- Modelled from the spec: the Chunker (langchain
`RecursiveCharacterTextSplitter(chunk_size=1500, chunk_overlap=300)`, an
external collaborator not part of this repository) restricted to inputs no
longer than the target window, where §4.4's contract — "each window is ≤ the
target chunk size", windows in order, non-empty input — is met by emitting
the whole text as the single window; empty input yields no window. -/
def split_text_short (s : String) : List String := if s = "" then [] else [s]

/-! ## Indexer adapter: `VectorStore` -/

/-- The key `f"{doc['metadata']['filing_id']}_{doc['metadata'].get('chunk_index', 0)}"`
built by `VectorStore.add_documents` for each chunk (the typed metadata
always carries `chunk_index`). -/
def add_document_ids (documents : List Chunk) : List String :=
  documents.map (fun doc => doc.metadata.filing_id ++ "_" ++ Nat.repr doc.metadata.chunk_index)

/-- `VectorStore.add_documents`: `none` models the early-return no-op on an
empty batch; otherwise the `(documents, metadatas, ids)` triple handed to
`collection.add`. -/
def add_documents (documents : List Chunk) :
    Option (List String × List ChunkMeta × List String) :=
  if documents = [] then none
  else some (documents.map Chunk.text, documents.map Chunk.metadata, add_document_ids documents)

/-- A metadata filter value: a plain (scalar) value, or a mapping such as
`{"$in": [...]}`.  Operator payloads are lists of scalars, the shape
`VectorStore._build_where_clause` iterates over. -/
inductive FVal where
  | prim (s : String)
  | dict (entries : List (String × List String))
deriving DecidableEq

/-- A ChromaDB `where` expression as assembled by `_build_where_clause`:
a single `{key: value}` condition, an `$or` list, or an `$and` list. -/
inductive WhereClause where
  | field (k : String) (v : FVal)
  | orW (cs : List (String × String))
  | andW (cs : List (WhereClause))

/-- The loop body of `_build_where_clause` for one `(key, value)` item: a
dict value containing `"$in"` becomes `{"$or": [{key: v} for v in
value["$in"]]}`; anything else is appended as `{key: value}` unchanged. -/
def buildCondition (k : String) (v : FVal) : WhereClause :=
  match v with
  | FVal.dict es =>
    match es.lookup "$in" with
    | some vs => WhereClause.orW (vs.map (fun w => (k, w)))
    | none => WhereClause.field k v
  | _ => WhereClause.field k v

/-- `VectorStore._build_where_clause`: `None`/empty filters are falsy and
yield no clause; a single translated condition is returned bare; several are
conjoined under `$and`. -/
def build_where_clause (filter_metadata : Option (List (String × FVal))) :
    Option WhereClause :=
  match filter_metadata with
  | none => none
  | some [] => none
  | some fs =>
    let conditions := fs.map (fun kv => buildCondition kv.1 kv.2)
    match conditions with
    | [c] => some c
    | cs => some (WhereClause.andW cs)

/-- The raw result envelope of a single-query `collection.query` call:
parallel outer lists of documents and metadatas (each outer list holds one
inner list per query text; `search` always sends exactly one query). -/
structure QueryResult where
  documents : List (List String)
  metadatas : List (List ChunkMeta)
deriving DecidableEq

/-- `doc[:100]`, the deduplication signature of `_process_results` (Python
slices by code point). -/
def take100 (s : String) : String := (s.toList.take 100).asString

/-- The pieces counted by
`[float(x) for x in metadata.get(k, '').split(',') if x]`: the non-empty
comma-separated parts.  Only the count of this list flows into the output
(the summary string), so the `float` conversions themselves need not be
modelled. -/
def floatParts (s : String) : List (List Char) :=
  (splitOnChar ',' s.toList).filter (fun x => x ≠ [])

/-- The `metrics_summary` string attached by `_process_results`. -/
def summaryString (m : ChunkMeta) : String :=
  "Found " ++ Nat.repr (floatParts m.currency_amounts).length ++
    " currency amounts and " ++ Nat.repr (floatParts m.percentages).length ++
    " percentage values"

/-- The in-place update `metadata['metrics_summary'] = ...` performed on a
retained metadata record whose `has_metrics` flag is `'true'`: only the
`metrics_summary` key changes. -/
def withSummary (m : ChunkMeta) : ChunkMeta :=
  { m with metrics_summary := some (summaryString m) }

/-- The annotation applied to the current record inside the loop: the update
happens exactly when `metadata.get('has_metrics') == 'true'`. -/
def annotateMeta (m : ChunkMeta) : ChunkMeta :=
  if m.has_metrics = "true" then withSummary m else m

/-- The result-processing loop of `_process_results` over the zipped
`(document, metadata)` pairs.  State: `seen` (the `seen_contents` set) and
`processed` (the accumulator).  Returns the final `processed` list and —
making the in-place mutation of the metadata dicts explicit — the post-call
contents of the input metadata list (records after the break point are
untouched).  The `len(processed) >= limit` break is checked at the end of
every iteration, in both the duplicate and the first-seen branch. -/
def processLoop (limit : Nat) :
    List (String × ChunkMeta) → List String → List (String × ChunkMeta) →
      List (String × ChunkMeta) × List ChunkMeta
  | [], _, processed => (processed, [])
  | (doc, meta) :: rest, seen, processed =>
    let content_sig := take100 doc
    if seen.contains content_sig then
      if limit ≤ processed.length then (processed, meta :: rest.map Prod.snd)
      else
        let r := processLoop limit rest seen processed
        (r.1, meta :: r.2)
    else
      let meta2 := annotateMeta meta
      let processed2 := processed ++ [(doc, meta2)]
      if limit ≤ processed2.length then (processed2, meta2 :: rest.map Prod.snd)
      else
        let r := processLoop limit rest (content_sig :: seen) processed2
        (r.1, meta2 :: r.2)

/-- `VectorStore._process_results`: empty or absent result lists yield the
empty envelope; otherwise run the deduplication loop over
`zip(results['documents'][0], results['metadatas'][0])` and unzip the
processed pairs.  (A non-empty `documents` list alongside an empty
`metadatas` list would raise `IndexError` in Python; engine envelopes always
carry parallel lists, and that branch is modelled as the empty envelope.) -/
def process_results (results : QueryResult) (limit : Nat) : QueryResult :=
  match results.documents, results.metadatas with
  | docs0 :: _, metas0 :: _ =>
    match docs0 with
    | [] => ⟨[[]], [[]]⟩
    | _ :: _ =>
      let pr := (processLoop limit (docs0.zip metas0) [] []).1
      ⟨[pr.map Prod.fst], [pr.map Prod.snd]⟩
  | _, _ => ⟨[[]], [[]]⟩

/-- The post-call contents of `results['metadatas'][0]`, recording the
side effect `_process_results` has on its input envelope (the records it
annotates are the very dict objects held by the caller's list). -/
def process_results_mutated (results : QueryResult) (limit : Nat) : List ChunkMeta :=
  match results.documents, results.metadatas with
  | docs0 :: _, metas0 :: _ =>
    match docs0 with
    | [] => metas0
    | _ :: _ =>
      let z := docs0.zip metas0
      (processLoop limit z [] []).2 ++ metas0.drop z.length
  | _, metas => (metas.headD [])

/-- `VectorStore.search`: build the where clause, query the (injected)
engine for `limit * 2` raw candidates, and reconcile through
`_process_results`. -/
def vector_search (query_engine : String → Option WhereClause → Nat → QueryResult)
    (query : String) (filter_metadata : Option (List (String × FVal))) (limit : Nat) :
    QueryResult :=
  let where_clause := build_where_clause filter_metadata
  let results := query_engine query where_clause (limit * 2)
  process_results results limit

/-! ## Reference definitions and concrete instances used by the claim theorems -/

/-- A two-section filing: `"Risk Factors"` and `"Business"` each open a
section, each section text is within the chunker's 1500-character window, so
each section yields exactly one chunk with `chunk_index = 0`. -/
def c3_doc : SECDocument :=
  ⟨"F1", "Acme Corp", "ACME", "10-K", "2024-01-01 00:00:00",
    "Risk Factors\nWe face risks.\nBusiness\nWe sell things.", [], []⟩

/-- A filter whose shape the translation does not support: a dict value
without the `"$in"` operator. -/
def c7_bad_filter : List (String × FVal) := [("filing_type", FVal.dict [("$gt", ["10-K"])])]

def c7_meta : ChunkMeta :=
  ⟨"f1", "Acme Corp", "ACME", "10-K", "2024-01-01 00:00:00", "other", 0, 1, "", "", "false",
    none⟩

/-- A stub for the opaque engine's `collection.query`, returning one hit. -/
def c7_engine : String → Option WhereClause → Nat → QueryResult :=
  fun _ _ _ => ⟨[["alpha"]], [[c7_meta]]⟩

/-- First-seen-by-signature filtering of the raw pairs in raw order, the
reference description of the Reconciler's forward pass: keep a pair when its
signature has not been seen before, remember its signature. -/
def firstSeenBySig (seen : List String) : List (String × ChunkMeta) → List (String × ChunkMeta)
  | [] => []
  | (doc, meta) :: rest =>
    if seen.contains (take100 doc) then firstSeenBySig seen rest
    else (doc, meta) :: firstSeenBySig (take100 doc :: seen) rest

/-- The first inner document list of a result envelope. -/
def resultDocs (r : QueryResult) : List String := r.documents.headD []

/-- The first inner metadata list of a result envelope. -/
def resultMetas (r : QueryResult) : List ChunkMeta := r.metadatas.headD []

def c5_meta : ChunkMeta :=
  ⟨"f5", "Acme Corp", "ACME", "10-K", "2024-01-01 00:00:00", "other", 0, 1, "", "", "false",
    none⟩

def c10_meta : ChunkMeta :=
  ⟨"fX", "Acme Corp", "ACME", "10-K", "2024-01-01 00:00:00", "other", 0, 1, "5.0", "",
    "true", none⟩

/-! ## Helper lemmas -/

theorem identify_section_nil : identify_section [] = "other" := by decide

theorem identify_section_ne_other_ne_nil {l : List Char}
    (h : identify_section l ≠ "other") : l ≠ [] := by
  intro hl
  subst hl
  exact h identify_section_nil

theorem joinNl_splitOnChar (cs : List Char) :
    joinNl (splitOnChar '\n' cs) = '\n' :: cs := by
  induction cs with
  | nil => rfl
  | cons c cs ih =>
    by_cases hc : c = '\n'
    · subst hc
      simp only [splitOnChar, if_pos rfl, joinNl, List.nil_append]
      rw [ih]
    · simp only [splitOnChar, if_neg hc]
      cases hs : splitOnChar '\n' cs with
      | nil => rw [hs] at ih; simp [joinNl] at ih
      | cons r rs =>
        rw [hs] at ih
        simp only [joinNl] at ih ⊢
        have : r ++ joinNl rs = cs := by
          injection ih
        simp [List.cons_append, this]

theorem splitOnChar_ne_nil (sep : Char) (cs : List Char) : splitOnChar sep cs ≠ [] := by
  cases cs with
  | nil => simp [splitOnChar]
  | cons c cs =>
    simp only [splitOnChar]
    by_cases hc : c = sep
    · simp [hc]
    · simp only [if_neg hc]
      cases splitOnChar sep cs <;> simp

theorem foldl_splitStep_all_other (lines : List (List Char)) :
    ∀ (secs : List (List Char × String)) (cur : List Char) (ty : String),
      (∀ l ∈ lines, identify_section l = "other") →
      List.foldl splitStep (secs, cur, ty) lines = (secs, cur ++ joinNl lines, ty) := by
  induction lines with
  | nil => intro secs cur ty _; simp [joinNl]
  | cons l ls ih =>
    intro secs cur ty h
    have hl : identify_section l = "other" := h l (List.mem_cons_self l ls)
    have hstep : splitStep (secs, cur, ty) l = (secs, cur ++ '\n' :: l, ty) := by
      simp [splitStep, hl]
    simp only [List.foldl_cons, hstep]
    rw [ih _ _ _ (fun x hx => h x (List.mem_cons_of_mem l hx))]
    simp [joinNl, List.append_assoc]

theorem foldl_splitStep_count (lines : List (List Char)) :
    ∀ (secs : List (List Char × String)) (cur : List Char) (ty : String), cur ≠ [] →
      (List.foldl splitStep (secs, cur, ty) lines).2.1 ≠ [] ∧
        (List.foldl splitStep (secs, cur, ty) lines).1.length =
          secs.length + (lines.filter (fun l => identify_section l != "other")).length := by
  induction lines with
  | nil => intro secs cur ty hcur; exact ⟨hcur, by simp⟩
  | cons l ls ih =>
    intro secs cur ty hcur
    by_cases hl : identify_section l = "other"
    · have hstep : splitStep (secs, cur, ty) l = (secs, cur ++ '\n' :: l, ty) := by
        simp [splitStep, hl]
      have hcur2 : cur ++ '\n' :: l ≠ [] := by simp
      have := ih secs (cur ++ '\n' :: l) ty hcur2
      simp only [List.foldl_cons, hstep]
      refine ⟨this.1, ?_⟩
      rw [this.2]
      simp [List.filter_cons, hl]
    · have hstep : splitStep (secs, cur, ty) l =
          (secs ++ [(cur, ty)], l, identify_section l) := by
        simp [splitStep, hl, if_neg hcur]
      have hlne : l ≠ [] := identify_section_ne_other_ne_nil hl
      have := ih (secs ++ [(cur, ty)]) l (identify_section l) hlne
      simp only [List.foldl_cons, hstep]
      refine ⟨this.1, ?_⟩
      rw [this.2]
      have : (identify_section l != "other") = true := by simp [hl]
      simp [List.filter_cons, this]
      omega

/-! ## Claim C2 -/

/-- C2, counterexample: for the header-free input `"hello"` the Segmenter
returns a single `'other'` span, but its text is `"\nhello"`, not the input
text — the claim that the span text equals the input is false. -/
theorem c2_counterexample :
    split_into_sections "hello" ≠ [("hello", "other")] ∧
      split_into_sections "hello" = [("\nhello", "other")] := by decide

/-- C2, amended: for every input in which no line matches any section
pattern, `_split_into_sections` returns exactly one span, tagged `'other'`,
whose text is a single newline followed by the input text (the accumulation
`current_text += '\n' + line` starts from the empty string, so every
appended line contributes a leading `'\n'`). -/
theorem c2_single_other_span (text : String)
    (h : ∀ l ∈ splitOnChar '\n' text.toList, identify_section l = "other") :
    split_into_sections text = [("\n" ++ text, "other")] := by
  unfold split_into_sections split_into_sections_l
  rw [foldl_splitStep_all_other _ _ _ _ h]
  rw [List.nil_append, joinNl_splitOnChar]
  simp only [ne_eq, reduceCtorEq, not_false_eq_true, if_neg, List.nil_append, List.map_cons,
    List.map_nil, List.cons.injEq, Prod.mk.injEq, and_true]
  cases text
  rfl

/-- C2, witness for the amended theorem at the concrete header-free input
`"hello"`. -/
theorem c2_single_other_span_witness :
    split_into_sections "hello" = [("\nhello", "other")] :=
  c2_single_other_span "hello" (by decide)

/-! ## Claim C4 -/

/-- C4, counterexample: on `"Risk Factors\nRisk Factors"` the second line's
classified tag equals the tag of the span being accumulated, yet the
Segmenter emits the current span and opens a new one — two spans with the
same tag result, where the claim's append-on-equal-tag rule would produce
the single span `[("Risk Factors\nRisk Factors", "risk_factors")]`.
Conversely, on `"Risk Factors\nhello"` the second line's tag (`'other'`)
differs from the current span's tag, yet the line is appended instead of
opening a new span. -/
theorem c4_counterexample :
    split_into_sections "Risk Factors\nRisk Factors" ≠
        [("Risk Factors\nRisk Factors", "risk_factors")] ∧
      split_into_sections "Risk Factors\nRisk Factors" =
        [("Risk Factors", "risk_factors"), ("Risk Factors", "risk_factors")] ∧
      split_into_sections "Risk Factors\nhello" =
        [("Risk Factors\nhello", "risk_factors")] := by decide

/-- C4, amended: a new span is started exactly when the classified tag of a
line is not `'other'` (the previous span is emitted when its accumulated
text is non-empty, and the new span is seeded with the triggering line,
regardless of whether the tag equals the current span's tag); a line
classified `'other'` is always appended to the current span, even when the
current span's tag differs.  Consequently the number of spans equals the
number of non-`'other'` lines, plus one for the leading `'other'` block when
the first line is classified `'other'`. -/
theorem c4_boundary_rule :
    (∀ (secs : List (List Char × String)) (cur : List Char) (ty : String) (line : List Char),
        identify_section line ≠ "other" →
        splitStep (secs, cur, ty) line =
          ((if cur = [] then secs else secs ++ [(cur, ty)]), line, identify_section line)) ∧
    (∀ (secs : List (List Char × String)) (cur : List Char) (ty : String) (line : List Char),
        identify_section line = "other" →
        splitStep (secs, cur, ty) line = (secs, cur ++ '\n' :: line, ty)) ∧
    (∀ text : String,
        (split_into_sections text).length =
          ((splitOnChar '\n' text.toList).filter
              (fun l => identify_section l != "other")).length +
            (if identify_section ((splitOnChar '\n' text.toList).headD []) = "other"
              then 1 else 0)) := by
  refine ⟨?_, ?_, ?_⟩
  · intro secs cur ty line h
    simp [splitStep, h]
  · intro secs cur ty line h
    simp [splitStep, h]
  · intro text
    unfold split_into_sections split_into_sections_l
    cases hs : splitOnChar '\n' text.toList with
    | nil => exact absurd hs (splitOnChar_ne_nil '\n' text.toList)
    | cons l ls =>
      by_cases hl : identify_section l = "other"
      · have hstep : splitStep ([], [], "other") l = ([], [] ++ '\n' :: l, "other") := by
          simp [splitStep, hl]
        have hc := foldl_splitStep_count ls [] ('\n' :: l) "other" (by simp)
        simp only [List.foldl_cons, hstep, List.nil_append]
        rw [List.length_map]
        simp only [if_neg hc.1]
        rw [List.length_append, hc.2]
        simp [List.filter_cons, hl, List.headD]
      · have hstep : splitStep ([], [], "other") l = ([], l, identify_section l) := by
          simp [splitStep, hl]
        have hlne : l ≠ [] := identify_section_ne_other_ne_nil hl
        have hc := foldl_splitStep_count ls [] l (identify_section l) hlne
        simp only [List.foldl_cons, hstep]
        rw [List.length_map]
        simp only [if_neg hc.1]
        rw [List.length_append, hc.2]
        have hb : (identify_section l != "other") = true := by simp [hl]
        simp [List.filter_cons, hb, List.headD, hl]

/-- C4, witness: the amended step rule evaluated at concrete inputs — a
`risk_factors` line closes the (non-empty) accumulating `'other'` span, and
an `'other'` line is appended to a `risk_factors` span. -/
theorem c4_boundary_rule_witness :
    splitStep ([], "We".toList, "other") ("Risk Factors".toList) =
        ([("We".toList, "other")], "Risk Factors".toList, "risk_factors") ∧
      splitStep ([], "Risk Factors".toList, "risk_factors") ("hello".toList) =
        ([], "Risk Factors\nhello".toList, "risk_factors") :=
  ⟨(c4_boundary_rule.1 [] ("We".toList) "other" ("Risk Factors".toList) (by decide)).trans
      (by decide),
    (c4_boundary_rule.2.1 [] ("Risk Factors".toList) "risk_factors" ("hello".toList)
      (by decide)).trans (by decide)⟩

/-! ## Claim C1 -/

/-- C1: the Metric Extractor evaluated at the claim's example input.  The
currency regex `\$\s*(\d+(?:,\d{3})*(?:\.\d{2})?)\s*(million|billion|trillion)?`
accepts a fractional part only when it has exactly two digits, so in
`"$1.5 million"` the match stops after `"$1"`: group 1 is `"1"`, the scale
group does not match (the characters after `"1"` are `".5 …"`), and the
extracted amount is `1.0` — not the `1_500_000.0` the claim states.  The
percentage sequence is `[12.3]` as claimed. -/
theorem c1_metric_extractor_example :
    extract_metrics "$1.5 million in revenue and a 12.3% increase" = ([1], [123 / 10]) ∧
      extract_metrics "$1.5 million in revenue and a 12.3% increase" ≠
        ([1500000], [123 / 10]) := by
  constructor
  · decide
  · decide

/-! ## Claim C3 -/

/-- C3: the keys `f"{filing_id}_{chunk_index}"` built by
`VectorStore.add_documents` for the chunks of a single filing whose text
segments into two sections are `["F1_0", "F1_0"]` — `chunk_index` restarts
in every section and the key carries no cross-section disambiguator, so the
keys collide instead of being pairwise distinct as the claim (and the spec's
stated uniqueness invariant) require. -/
theorem c3_key_collision :
    add_document_ids (process_document split_text_short c3_doc) = ["F1_0", "F1_0"] ∧
      ¬ (add_document_ids (process_document split_text_short c3_doc)).Nodup := by
  constructor
  · decide
  · decide

/-! ## Claim C8 -/

/-- C8: for every Filing whose raw text is empty, `process_document` returns
the empty chunk list — the empty `document_text` is falsy, so the section
split, cleaning, chunking and metric extraction are all skipped; being a
total function, the embedding also shows no error is raised. -/
theorem c8_empty_text_yields_no_chunks
    (split_text : String → List String) (document : SECDocument)
    (h : document.document_text = "") :
    process_document split_text document = [] := by
  simp [process_document, h]

/-- C8, witness at a concrete empty-text filing. -/
theorem c8_empty_text_yields_no_chunks_witness :
    process_document split_text_short
      ⟨"F2", "Acme Corp", "ACME", "10-K", "2024-01-01 00:00:00", "", [], []⟩ = [] :=
  c8_empty_text_yields_no_chunks split_text_short _ rfl

/-! ## Claim C6 -/

/-- C6: the filter translation of `_build_where_clause` — a single-field
filter with a plain value is passed through unchanged as `{key: value}`; a
field whose dict value carries `"$in"` becomes an `$or` of exact-match
clauses for that field; a filter with two or more fields becomes an `$and`
of the translated per-field clauses; an absent (`None`) or empty filter
yields no clause. -/
theorem c6_filter_translation :
    (∀ k s, build_where_clause (some [(k, FVal.prim s)]) =
        some (WhereClause.field k (FVal.prim s))) ∧
    (∀ k es vs, es.lookup "$in" = some vs →
        buildCondition k (FVal.dict es) = WhereClause.orW (vs.map (fun w => (k, w)))) ∧
    (∀ fs : List (String × FVal), 2 ≤ fs.length →
        build_where_clause (some fs) =
          some (WhereClause.andW (fs.map (fun kv => buildCondition kv.1 kv.2)))) ∧
    build_where_clause none = none ∧ build_where_clause (some []) = none := by
  refine ⟨?_, ?_, ?_, rfl, rfl⟩
  · intro k s; rfl
  · intro k es vs h
    simp [buildCondition, h]
  · intro fs h
    match fs with
    | [] => simp at h
    | [kv] => simp at h
    | a :: b :: rest => rfl

/-- C6, witness: the `$in` translation and the multi-field conjunction at
concrete filters. -/
theorem c6_filter_translation_witness :
    buildCondition "ticker" (FVal.dict [("$in", ["AAPL", "MSFT"])]) =
        WhereClause.orW [("ticker", "AAPL"), ("ticker", "MSFT")] ∧
      build_where_clause
          (some [("ticker", FVal.prim "AAPL"), ("filing_type", FVal.prim "10-K")]) =
        some (WhereClause.andW [WhereClause.field "ticker" (FVal.prim "AAPL"),
          WhereClause.field "filing_type" (FVal.prim "10-K")]) :=
  ⟨c6_filter_translation.2.1 "ticker" [("$in", ["AAPL", "MSFT"])] ["AAPL", "MSFT"] rfl,
    c6_filter_translation.2.2.1 [("ticker", FVal.prim "AAPL"),
      ("filing_type", FVal.prim "10-K")] (by decide)⟩

/-! ## Claim C7 -/

/-- C7, counterexample: for the unsupported filter shape
`{"filing_type": {"$gt": [...]}}` — neither a plain value nor an `"$in"`
list — `_build_where_clause` does not fail: it silently passes the pair
through as `{key: value}`, and `search` completes normally, returning the
engine's hit.  The claim that such a filter makes the search operation fail
fast with an error is false (no code path of `_build_where_clause` or
`search` raises). -/
theorem c7_counterexample :
    build_where_clause (some c7_bad_filter) =
        some (WhereClause.field "filing_type" (FVal.dict [("$gt", ["10-K"])])) ∧
      vector_search c7_engine "any question" (some c7_bad_filter) 5 =
        ⟨[["alpha"]], [[c7_meta]]⟩ := by
  constructor
  · rfl
  · rfl

/-- C7, amended: an unsupported filter shape (a dict value without the
`"$in"` key) is not rejected — the translation appends the field–value pair
to the engine expression verbatim as `{key: value}`, and `search` proceeds
to query the engine with the resulting clause; no error is raised by the
adapter (every code path is total). -/
theorem c7_unsupported_shape_passthrough :
    (∀ k es, es.lookup "$in" = none →
        buildCondition k (FVal.dict es) = WhereClause.field k (FVal.dict es)) ∧
    (∀ query_engine query fm limit,
        vector_search query_engine query fm limit =
          process_results (query_engine query (build_where_clause fm) (limit * 2)) limit) := by
  refine ⟨?_, fun _ _ _ _ => rfl⟩
  intro k es h
  simp [buildCondition, h]

/-- C7, witness: the passthrough at the concrete unsupported shape. -/
theorem c7_unsupported_shape_passthrough_witness :
    buildCondition "filing_type" (FVal.dict [("$gt", ["10-K"])]) =
      WhereClause.field "filing_type" (FVal.dict [("$gt", ["10-K"])]) :=
  c7_unsupported_shape_passthrough.1 "filing_type" [("$gt", ["10-K"])] rfl

/-! ## Claim C9 -/

/-- C9: the Section Classifier matches its patterns anywhere within a line,
case-insensitively.  First conjunct: prepending arbitrary text never hides
an occurrence of the (lower-case) phrase `"risk factors"` from the
`risk_factors` search — the search is an unanchored substring scan.
Remaining conjuncts: whenever a line contains a pattern occurrence
(formalised as the pattern search succeeding on the line) — and, for
lower-priority tags, contains no higher-priority pattern, since the first
match in `section_patterns` order wins — `_identify_section` returns that
section's tag; no header anchoring is involved, so ordinary body lines can
trigger span boundaries in the Segmenter. -/
theorem c9_classifier_unanchored :
    (∀ pre : List Char,
        searchFrom risk_factors_pattern (pre ++ "risk factors".toList) = true) ∧
    (∀ s, searchFrom risk_factors_pattern s = true →
        identify_section s = "risk_factors") ∧
    (∀ s, searchFrom risk_factors_pattern s = false → searchFrom mda_pattern s = true →
        identify_section s = "mda") ∧
    (∀ s, searchFrom risk_factors_pattern s = false → searchFrom mda_pattern s = false →
        searchFrom business_pattern s = true → identify_section s = "business") ∧
    (∀ s, searchFrom risk_factors_pattern s = false → searchFrom mda_pattern s = false →
        searchFrom business_pattern s = false →
        searchFrom financial_statements_pattern s = true →
        identify_section s = "financial_statements") ∧
    (∀ s, searchFrom risk_factors_pattern s = false → searchFrom mda_pattern s = false →
        searchFrom business_pattern s = false →
        searchFrom financial_statements_pattern s = false →
        searchFrom market_risk_pattern s = true →
        identify_section s = "market_risk") := by
  refine ⟨?_, ?_, ?_, ?_, ?_, ?_⟩
  · intro pre
    induction pre with
    | nil => decide
    | cons c pre ih =>
      simp only [List.cons_append, searchFrom, Bool.or_eq_true]
      exact Or.inr ih
  · intro s h1; simp [identify_section, h1]
  · intro s h1 h2; simp [identify_section, h1, h2]
  · intro s h1 h2 h3; simp [identify_section, h1, h2, h3]
  · intro s h1 h2 h3 h4; simp [identify_section, h1, h2, h3, h4]
  · intro s h1 h2 h3 h4 h5; simp [identify_section, h1, h2, h3, h4, h5]

/-- C9, witness: lower-case section phrases inside body prose — with text on
both sides — classify as the phrase's tag. -/
theorem c9_classifier_unanchored_witness :
    identify_section ("we must manage risk factors carefully".toList) = "risk_factors" ∧
      identify_section ("our core business grew this year".toList) = "business" :=
  ⟨c9_classifier_unanchored.2.1 ("we must manage risk factors carefully".toList) (by decide),
    c9_classifier_unanchored.2.2.2.1 ("our core business grew this year".toList)
      (by decide) (by decide) (by decide)⟩

/-! ## Claims C5 and C10: loop lemmas -/

theorem processLoop_eq_take (limit : Nat) (pairs : List (String × ChunkMeta)) :
    ∀ (seen : List String) (processed : List (String × ChunkMeta)),
      processed.length < limit →
      (processLoop limit pairs seen processed).1 =
        processed ++
          ((firstSeenBySig seen pairs).take (limit - processed.length)).map
            (fun p => (p.1, annotateMeta p.2)) := by
  induction pairs with
  | nil => intro seen processed h; simp [processLoop, firstSeenBySig]
  | cons dm rest ih =>
    intro seen processed h
    obtain ⟨d, m⟩ := dm
    have hnb : ¬ limit ≤ processed.length := Nat.not_le.mpr h
    by_cases hc : seen.contains (take100 d) = true
    · simp only [processLoop, firstSeenBySig, hc, if_true, if_neg hnb]
      exact ih seen processed h
    · by_cases hbr : limit ≤ (processed ++ [(d, annotateMeta m)]).length
      · have hone : limit - processed.length = 1 := by
          simp only [List.length_append, List.length_cons, List.length_nil] at hbr
          omega
        simp only [processLoop, firstSeenBySig, hc, if_false, if_pos hbr, hone,
          Bool.false_eq_true, List.take_succ_cons, List.take_zero, List.map_cons,
          List.map_nil]
      · have h2 : (processed ++ [(d, annotateMeta m)]).length < limit := Nat.not_le.mp hbr
        have hsplit : limit - processed.length =
            (limit - (processed ++ [(d, annotateMeta m)]).length) + 1 := by
          simp only [List.length_append, List.length_cons, List.length_nil]
          omega
        simp only [processLoop, firstSeenBySig, hc, if_false, if_neg hbr,
          Bool.false_eq_true]
        rw [ih (take100 d :: seen) (processed ++ [(d, annotateMeta m)]) h2, hsplit,
          List.take_succ_cons, List.map_cons, ← List.append_cons]

theorem firstSeenBySig_cons_seen {seen : List String} {d : String} {m : ChunkMeta}
    {rest : List (String × ChunkMeta)} (hc : seen.contains (take100 d) = true) :
    firstSeenBySig seen ((d, m) :: rest) = firstSeenBySig seen rest := by
  have hmem : take100 d ∈ seen := by simpa using hc
  simp [firstSeenBySig, hmem]

theorem firstSeenBySig_cons_new {seen : List String} {d : String} {m : ChunkMeta}
    {rest : List (String × ChunkMeta)} (hc : seen.contains (take100 d) = false) :
    firstSeenBySig seen ((d, m) :: rest) =
      (d, m) :: firstSeenBySig (take100 d :: seen) rest := by
  have hmem : take100 d ∉ seen := by simpa using hc
  simp [firstSeenBySig, hmem]

theorem firstSeenBySig_sig_nodup (pairs : List (String × ChunkMeta)) :
    ∀ seen : List String,
      ((firstSeenBySig seen pairs).map (fun p => take100 p.1)).Nodup ∧
        ∀ s ∈ (firstSeenBySig seen pairs).map (fun p => take100 p.1),
          seen.contains s = false := by
  induction pairs with
  | nil => intro seen; simp [firstSeenBySig]
  | cons dm rest ih =>
    intro seen
    obtain ⟨d, m⟩ := dm
    by_cases hc : seen.contains (take100 d) = true
    · rw [firstSeenBySig_cons_seen hc]
      exact ih seen
    · have hcf : seen.contains (take100 d) = false := by
        cases hcc : seen.contains (take100 d) with
        | true => exact absurd hcc hc
        | false => rfl
      rw [firstSeenBySig_cons_new hcf]
      have hrec := ih (take100 d :: seen)
      simp only [List.map_cons]
      constructor
      · rw [List.nodup_cons]
        constructor
        · intro hmem
          have h2 := hrec.2 _ hmem
          rw [List.contains_cons] at h2
          simp at h2
        · exact hrec.1
      · intro s hs
        rcases List.mem_cons.mp hs with h1 | h2
        · subst h1; exact hcf
        · have h3 := hrec.2 s h2
          rw [List.contains_cons] at h3
          simp only [Bool.or_eq_false_iff] at h3
          exact h3.2

/-! ## Claim C5 -/

/-- C5, counterexample: at `limit = 0` the Reconciler still returns one
result from a non-empty raw envelope — the `len(processed) >= limit` break
is only checked after the first pair has already been appended — so "at most
`limit` results for every limit" is false. -/
theorem c5_counterexample :
    resultDocs (process_results ⟨[["aaa"]], [[c5_meta]]⟩ 0) = ["aaa"] ∧
      ¬ (resultDocs (process_results ⟨[["aaa"]], [[c5_meta]]⟩ 0)).length ≤ 0 := by
  constructor
  · decide
  · decide

/-- C5, amended: for every raw result envelope and every `limit ≥ 1` (the
break check runs only after an iteration has completed, so a zero or
negative limit still lets the first raw pair through), `_process_results`
returns at most `limit` pairs, no two of which share a first-100-character
signature, and the returned documents are exactly the length-`limit` prefix
of the first-seen-by-signature filtering of the raw pairs in raw
(similarity) order — the single forward pass keeps the first-seen of each
signature and short-circuits once `limit` unique results are collected. -/
theorem c5_reconciler_dedup (results : QueryResult) (limit : Nat) (hlim : 1 ≤ limit)
    (docs0 : List String) (dtail : List (List String))
    (metas0 : List ChunkMeta) (mtail : List (List ChunkMeta))
    (hdocs : results.documents = docs0 :: dtail)
    (hmetas : results.metadatas = metas0 :: mtail) :
    (resultDocs (process_results results limit)).length ≤ limit ∧
      ((resultDocs (process_results results limit)).map take100).Nodup ∧
      resultDocs (process_results results limit) =
        ((firstSeenBySig [] (docs0.zip metas0)).map Prod.fst).take limit := by
  cases docs0 with
  | nil =>
    simp [process_results, hdocs, hmetas, resultDocs, firstSeenBySig]
  | cons dh dt =>
    have hkey := processLoop_eq_take limit ((dh :: dt).zip metas0) [] [] (by simpa using hlim)
    have hfun : (Prod.fst ∘ fun p : String × ChunkMeta => (p.1, annotateMeta p.2)) =
        Prod.fst := by
      funext p; rfl
    have hout : resultDocs (process_results results limit) =
        ((firstSeenBySig [] ((dh :: dt).zip metas0)).map Prod.fst).take limit := by
      simp only [process_results, hdocs, hmetas, resultDocs, List.headD_cons]
      rw [hkey]
      simp only [List.nil_append, List.length_nil, Nat.sub_zero, List.map_map, hfun,
        List.map_take]
    rw [hout]
    refine ⟨?_, ?_, rfl⟩
    · rw [List.length_take]
      exact Nat.min_le_left _ _
    · rw [List.map_take, List.map_map]
      have hnd := (firstSeenBySig_sig_nodup ((dh :: dt).zip metas0) []).1
      exact List.Nodup.sublist (List.take_sublist _ _) hnd

/-- C5, witness for the amended theorem: a four-hit envelope with a repeated
signature at `limit = 2` yields at most two results. -/
theorem c5_reconciler_dedup_witness :
    (resultDocs (process_results ⟨[["aaa", "aab", "aaa", "bbb"]],
        [[c5_meta, c5_meta, c5_meta, c5_meta]]⟩ 2)).length ≤ 2 :=
  (c5_reconciler_dedup ⟨[["aaa", "aab", "aaa", "bbb"]],
      [[c5_meta, c5_meta, c5_meta, c5_meta]]⟩ 2 (by omega)
    ["aaa", "aab", "aaa", "bbb"] [] [c5_meta, c5_meta, c5_meta, c5_meta] [] rfl rfl).1

theorem forall₂_map_snd {R : (String × ChunkMeta) → ChunkMeta → Prop}
    (hR : ∀ dm, R dm dm.2) : ∀ l : List (String × ChunkMeta),
      List.Forall₂ R l (l.map Prod.snd)
  | [] => List.Forall₂.nil
  | x :: xs => List.Forall₂.cons (hR x) (forall₂_map_snd hR xs)

theorem processLoop_extend (limit : Nat) (pairs : List (String × ChunkMeta)) :
    ∀ (seen : List String) (processed : List (String × ChunkMeta)),
      ∃ t, (processLoop limit pairs seen processed).1 = processed ++ t := by
  induction pairs with
  | nil => intro seen processed; exact ⟨[], by simp [processLoop]⟩
  | cons dm rest ih =>
    intro seen processed
    obtain ⟨d, m⟩ := dm
    by_cases hc : take100 d ∈ seen
    · by_cases hb : limit ≤ processed.length
      · exact ⟨[], by simp [processLoop, hc, hb]⟩
      · obtain ⟨t, ht⟩ := ih seen processed
        exact ⟨t, by simp [processLoop, hc, hb, ht]⟩
    · by_cases hb : limit ≤ processed.length + 1
      · exact ⟨[(d, annotateMeta m)], by simp [processLoop, hc, hb]⟩
      · obtain ⟨t, ht⟩ := ih (take100 d :: seen) (processed ++ [(d, annotateMeta m)])
        exact ⟨(d, annotateMeta m) :: t, by
          simp [processLoop, hc, hb, ht, List.append_assoc]⟩

theorem processLoop_cons_seen_break {limit : Nat} {seen : List String}
    {processed : List (String × ChunkMeta)} {d : String} {m : ChunkMeta}
    {rest : List (String × ChunkMeta)}
    (hc : seen.contains (take100 d) = true) (hb : limit ≤ processed.length) :
    processLoop limit ((d, m) :: rest) seen processed =
      (processed, m :: rest.map Prod.snd) := by
  have hmem : take100 d ∈ seen := by simpa using hc
  simp [processLoop, hmem, hb]

theorem processLoop_cons_seen_cont {limit : Nat} {seen : List String}
    {processed : List (String × ChunkMeta)} {d : String} {m : ChunkMeta}
    {rest : List (String × ChunkMeta)}
    (hc : seen.contains (take100 d) = true) (hb : ¬ limit ≤ processed.length) :
    processLoop limit ((d, m) :: rest) seen processed =
      ((processLoop limit rest seen processed).1,
        m :: (processLoop limit rest seen processed).2) := by
  have hmem : take100 d ∈ seen := by simpa using hc
  simp [processLoop, hmem, hb]

theorem processLoop_cons_new_break {limit : Nat} {seen : List String}
    {processed : List (String × ChunkMeta)} {d : String} {m : ChunkMeta}
    {rest : List (String × ChunkMeta)}
    (hc : seen.contains (take100 d) = false) (hb : limit ≤ processed.length + 1) :
    processLoop limit ((d, m) :: rest) seen processed =
      (processed ++ [(d, annotateMeta m)], annotateMeta m :: rest.map Prod.snd) := by
  have hmem : take100 d ∉ seen := by simpa using hc
  simp [processLoop, hmem, hb]

theorem processLoop_cons_new_cont {limit : Nat} {seen : List String}
    {processed : List (String × ChunkMeta)} {d : String} {m : ChunkMeta}
    {rest : List (String × ChunkMeta)}
    (hc : seen.contains (take100 d) = false) (hb : ¬ limit ≤ processed.length + 1) :
    processLoop limit ((d, m) :: rest) seen processed =
      ((processLoop limit rest (take100 d :: seen) (processed ++ [(d, annotateMeta m)])).1,
        annotateMeta m ::
          (processLoop limit rest (take100 d :: seen)
            (processed ++ [(d, annotateMeta m)])).2) := by
  have hmem : take100 d ∉ seen := by simpa using hc
  simp [processLoop, hmem, hb]

theorem processLoop_mutation (limit : Nat) (pairs : List (String × ChunkMeta)) :
    ∀ (seen : List String) (processed : List (String × ChunkMeta)),
      List.Forall₂ (fun dm a =>
          a = dm.2 ∨ (dm.2.has_metrics = "true" ∧ a = withSummary dm.2 ∧
            (dm.1, a) ∈ (processLoop limit pairs seen processed).1))
        pairs (processLoop limit pairs seen processed).2 := by
  induction pairs with
  | nil =>
    intro seen processed
    simp only [processLoop]
    exact List.Forall₂.nil
  | cons dm rest ih =>
    intro seen processed
    obtain ⟨d, m⟩ := dm
    have hhead : ∀ target : List (String × ChunkMeta),
        (d, annotateMeta m) ∈ target →
        annotateMeta m = m ∨ (m.has_metrics = "true" ∧ annotateMeta m = withSummary m ∧
          (d, annotateMeta m) ∈ target) := by
      intro target hmem
      by_cases hm : m.has_metrics = "true"
      · exact Or.inr ⟨hm, by simp [annotateMeta, hm], hmem⟩
      · exact Or.inl (by simp [annotateMeta, hm])
    cases hc : seen.contains (take100 d) with
    | true =>
      by_cases hb : limit ≤ processed.length
      · rw [processLoop_cons_seen_break hc hb]
        exact List.Forall₂.cons (Or.inl rfl) (forall₂_map_snd (fun dm => Or.inl rfl) rest)
      · rw [processLoop_cons_seen_cont hc hb]
        exact List.Forall₂.cons (Or.inl rfl) (ih seen processed)
    | false =>
      by_cases hb : limit ≤ processed.length + 1
      · rw [processLoop_cons_new_break hc hb]
        refine List.Forall₂.cons ?_ (forall₂_map_snd (fun dm => Or.inl rfl) rest)
        exact hhead _ (List.mem_append_right _ (by simp))
      · rw [processLoop_cons_new_cont hc hb]
        obtain ⟨t, ht⟩ :=
          processLoop_extend limit rest (take100 d :: seen) (processed ++ [(d, annotateMeta m)])
        refine List.Forall₂.cons ?_
          (ih (take100 d :: seen) (processed ++ [(d, annotateMeta m)]))
        refine hhead _ ?_
        rw [ht]
        exact List.mem_append_left _ (List.mem_append_right _ (by simp))

theorem processLoop_out_mem (limit : Nat) (pairs : List (String × ChunkMeta)) :
    ∀ (seen : List String) (processed : List (String × ChunkMeta)),
      ∀ p ∈ (processLoop limit pairs seen processed).1,
        p ∈ processed ∨ ∃ m, (p.1, m) ∈ pairs ∧ p.2 = annotateMeta m := by
  induction pairs with
  | nil =>
    intro seen processed p hp
    simp only [processLoop] at hp
    exact Or.inl hp
  | cons dm rest ih =>
    intro seen processed p hp
    obtain ⟨d, m⟩ := dm
    cases hc : seen.contains (take100 d) with
    | true =>
      by_cases hb : limit ≤ processed.length
      · rw [processLoop_cons_seen_break hc hb] at hp
        exact Or.inl hp
      · rw [processLoop_cons_seen_cont hc hb] at hp
        rcases ih seen processed p hp with h | ⟨mm, hmm, hpm⟩
        · exact Or.inl h
        · exact Or.inr ⟨mm, List.mem_cons_of_mem _ hmm, hpm⟩
    | false =>
      by_cases hb : limit ≤ processed.length + 1
      · rw [processLoop_cons_new_break hc hb] at hp
        rcases List.mem_append.mp hp with h | h
        · exact Or.inl h
        · have hpd : p = (d, annotateMeta m) := by simpa using h
          subst hpd
          exact Or.inr ⟨m, List.mem_cons_self _ _, rfl⟩
      · rw [processLoop_cons_new_cont hc hb] at hp
        rcases ih (take100 d :: seen) (processed ++ [(d, annotateMeta m)]) p hp with
          h | ⟨mm, hmm, hpm⟩
        · rcases List.mem_append.mp h with h1 | h1
          · exact Or.inl h1
          · have hpd : p = (d, annotateMeta m) := by simpa using h1
            subst hpd
            exact Or.inr ⟨m, List.mem_cons_self _ _, rfl⟩
        · exact Or.inr ⟨mm, List.mem_cons_of_mem _ hmm, hpm⟩

/-! ## Claim C10 -/

/-- C10: `_process_results` mutates the metadata records of the raw input
envelope in place; the pure embedding surfaces the effect through
`process_results_mutated`, the post-call contents of
`results['metadatas'][0]`.  First conjunct: every returned `(text, metadata)`
pair comes from an input pair, and its metadata is exactly the input record
with — when `has_metrics` is `'true'` — only the `metrics_summary` field
set (all other fields unchanged, by the structure update), or the untouched
input record otherwise.  Second conjunct: pointwise over the raw envelope,
each metadata record after the call is either untouched or is the
summary-annotated version of the record received from the engine, and every
annotated record is one of the retained results — the output aliases the
caller's records. -/
theorem c10_reconciler_mutation (results : QueryResult) (limit : Nat)
    (docs0 : List String) (dtail : List (List String))
    (metas0 : List ChunkMeta) (mtail : List (List ChunkMeta))
    (hdocs : results.documents = docs0 :: dtail)
    (hmetas : results.metadatas = metas0 :: mtail)
    (hlen : docs0.length = metas0.length) :
    (∀ p ∈ (resultDocs (process_results results limit)).zip
        (resultMetas (process_results results limit)),
        ∃ m, (p.1, m) ∈ docs0.zip metas0 ∧
          p.2 = (if m.has_metrics = "true"
            then { m with metrics_summary := some (summaryString m) } else m)) ∧
      List.Forall₂ (fun dm a =>
          a = dm.2 ∨ (dm.2.has_metrics = "true" ∧ a = withSummary dm.2 ∧
            (dm.1, a) ∈ (resultDocs (process_results results limit)).zip
              (resultMetas (process_results results limit))))
        (docs0.zip metas0) (process_results_mutated results limit) := by
  cases docs0 with
  | nil =>
    have hm0 : metas0 = [] := by
      cases metas0 with
      | nil => rfl
      | cons a b => simp at hlen
    subst hm0
    constructor
    · intro p hp
      simp [process_results, hdocs, hmetas, resultDocs, resultMetas] at hp
    · simp only [process_results_mutated, hdocs, hmetas, List.zip_nil_right]
      exact List.Forall₂.nil
  | cons dh dt =>
    have hpr : (resultDocs (process_results results limit)).zip
        (resultMetas (process_results results limit)) =
        (processLoop limit ((dh :: dt).zip metas0) [] []).1 := by
      simp only [process_results, hdocs, hmetas, resultDocs, resultMetas, List.headD_cons]
      rw [List.zip_map']
      simp
    have hmut : process_results_mutated results limit =
        (processLoop limit ((dh :: dt).zip metas0) [] []).2 := by
      simp only [process_results_mutated, hdocs, hmetas]
      rw [List.length_zip, hlen, Nat.min_self, List.drop_length, List.append_nil]
    constructor
    · intro p hp
      rw [hpr] at hp
      rcases processLoop_out_mem limit ((dh :: dt).zip metas0) [] [] p hp with h | ⟨m, hm, hpm⟩
      · simp at h
      · exact ⟨m, hm, hpm⟩
    · rw [hpr, hmut]
      exact processLoop_mutation limit ((dh :: dt).zip metas0) [] []

/-- C10, witness: a retained flagged record comes out as its input record
with only `metrics_summary` set. -/
theorem c10_reconciler_mutation_witness :
    ∃ m, ("alpha", m) ∈ (["alpha"].zip [c10_meta]) ∧
      withSummary c10_meta = (if m.has_metrics = "true"
        then { m with metrics_summary := some (summaryString m) } else m) :=
  (c10_reconciler_mutation ⟨[["alpha"]], [[c10_meta]]⟩ 1 ["alpha"] [] [c10_meta] []
      rfl rfl rfl).1
    ("alpha", withSummary c10_meta) (by decide)
